import Mathlib

/-!
# Verification of the TinyImageNet loader (`data_utils.py`, `load_tiny_imagenet`)

This file gives a shallow embedding of the single loading routine
`load_tiny_imagenet` of the repository and proves the specification's
claims about it.

Modelling conventions:

* The filesystem is an explicit input (`FS`): reading the lines of a text
  file, decoding an image with `imread`, and `os.listdir` are functions
  returning `Option` values; `none` models a raised `IOError` / decode
  error.  A Python exception aborting the load is modelled by the whole
  loader returning `none` (the `Option` monad).
* Decoded rasters are `RawImage`: either a 3-dimensional 64×64×3 array or a
  2-dimensional 64×64 (grayscale) array.  Pixels and the `float32` entries
  of the blocks are idealised as exact rationals (`ℚ`); numpy's
  floating-point mean/subtraction become exact rational arithmetic.
* Image blocks of shape (N, 64, 64, 3) are `List Image` (first axis = list
  position); label blocks of `int64` are `List ℕ` (labels are list
  indices, always non-negative, far from overflow).
* Python `dict`s are association lists built with insert-overwrite
  (`dictInsert`/`dictOf`), which reproduces `dict` comprehension
  semantics, including last-binding-wins on duplicate keys; `dictLookup`
  models `d[k]`, with `none` for a raised `KeyError`.
* `str.split('\t')`, `str.split(',')` and `str.strip` are re-implemented
  by structural recursion on the character list (`splitOnChar`, `pstrip`)
  so that every definition evaluates inside the kernel.
* File lines are modelled without their trailing newline character.
-/

set_option autoImplicit false

namespace TinyImageNet

/-! ## String utilities (Python `str.split` on one character, `str.strip`) -/

/-- Split a character list at every occurrence of the separator `c`,
mirroring Python `str.split(c)`: `splitOnChar c []` is `[[]]`, separators
produce empty groups. -/
def splitOnChar (c : Char) : List Char → List (List Char)
  | [] => [[]]
  | d :: cs =>
    if d = c then [] :: splitOnChar c cs
    else
      match splitOnChar c cs with
      | [] => [[d]]
      | g :: gs => (d :: g) :: gs

/-- Python `s.split('\t')`. -/
def tabSplit (s : String) : List String :=
  (splitOnChar '\t' s.toList).map List.asString

/-- Python `s.split(',')`. -/
def commaSplit (s : String) : List String :=
  (splitOnChar ',' s.toList).map List.asString

/-- Python `s.strip()`: drop leading and trailing whitespace. -/
def pstrip (s : String) : String :=
  ((((s.toList).dropWhile Char.isWhitespace).reverse.dropWhile
      Char.isWhitespace).reverse).asString

/-- Python `line.split('\t')[0]`: the prefix of the line before the first
tab (the whole line when there is no tab).  `split` never returns an empty
list, so indexing with `[0]` never fails. -/
def firstTabField (s : String) : String :=
  (tabSplit s).headD ""

/-! ## Python dictionaries as association lists -/

section Dict

variable {K V : Type} [DecidableEq K]

/-- `d[k] = v`: overwrite the value in place when the key is present
(Python dicts keep the original position of an overwritten key),
otherwise append the new binding. -/
def dictInsert (d : List (K × V)) (k : K) (v : V) : List (K × V) :=
  if d.any (fun pr => pr.1 = k) then
    d.map (fun pr => if pr.1 = k then (k, v) else pr)
  else d ++ [(k, v)]

/-- Insert all bindings of `l` into `d`, left to right. -/
def dictUpd (d : List (K × V)) : List (K × V) → List (K × V)
  | [] => d
  | pr :: rest => dictUpd (dictInsert d pr.1 pr.2) rest

/-- The dictionary built from a sequence of `(key, value)` bindings, as a
Python dict comprehension / `dict(...)` constructor does: later bindings
overwrite earlier ones. -/
def dictOf (l : List (K × V)) : List (K × V) := dictUpd [] l

/-- Python `d[k]`, `none` modelling a `KeyError`. -/
def dictLookup (d : List (K × V)) (k : K) : Option V :=
  (d.find? (fun pr => pr.1 = k)).map Prod.snd

@[simp] theorem keys_dictInsert (d : List (K × V)) (k : K) (v : V) :
    (dictInsert d k v).map Prod.fst =
      if d.any (fun pr => pr.1 = k) then d.map Prod.fst
      else d.map Prod.fst ++ [k] := by
  unfold dictInsert
  split
  · rw [List.map_map]
    apply List.map_congr_left
    intro pr _
    by_cases h : pr.1 = k <;> simp [h]
  · simp

theorem mem_keys_dictUpd {m : K} (l : List (K × V)) (d : List (K × V))
    (h : m ∈ (dictUpd d l).map Prod.fst) :
    m ∈ d.map Prod.fst ∨ m ∈ l.map Prod.fst := by
  induction l generalizing d with
  | nil => exact Or.inl h
  | cons pr rest ih =>
    rcases ih _ h with h' | h'
    · rw [keys_dictInsert] at h'
      split at h'
      · exact Or.inl h'
      · rcases List.mem_append.1 h' with h'' | h''
        · exact Or.inl h''
        · simp at h''
          subst h''
          exact Or.inr (by simp)
    · exact Or.inr (List.mem_cons_of_mem _ h')

theorem mem_keys_dictOf {m : K} {l : List (K × V)}
    (h : m ∈ (dictOf l).map Prod.fst) : m ∈ l.map Prod.fst := by
  rcases mem_keys_dictUpd l [] h with h' | h'
  · simp at h'
  · exact h'

theorem dictLookup_eq_none_of_not_mem {d : List (K × V)} {k : K}
    (h : k ∉ d.map Prod.fst) : dictLookup d k = none := by
  unfold dictLookup
  rw [List.find?_eq_none.2]
  · rfl
  · intro pr hpr
    simp only [decide_eq_true_eq]
    intro hk
    exact h (List.mem_map.2 ⟨pr, hpr, hk⟩)

theorem dictInsert_of_not_mem {d : List (K × V)} {k : K} (v : V)
    (h : k ∉ d.map Prod.fst) : dictInsert d k v = d ++ [(k, v)] := by
  unfold dictInsert
  rw [if_neg]
  simp only [List.any_eq_true, decide_eq_true_eq, not_exists, not_and]
  intro pr hpr hk
  exact h (List.mem_map.2 ⟨pr, hpr, hk⟩)

theorem dictUpd_eq_append {l : List (K × V)} (d : List (K × V))
    (hnd : (l.map Prod.fst).Nodup)
    (hdisj : ∀ k ∈ l.map Prod.fst, k ∉ d.map Prod.fst) :
    dictUpd d l = d ++ l := by
  induction l generalizing d with
  | nil => simp [dictUpd]
  | cons pr rest ih =>
    simp only [List.map_cons, List.nodup_cons] at hnd
    have hk : pr.1 ∉ d.map Prod.fst := hdisj pr.1 (by simp)
    show dictUpd (dictInsert d pr.1 pr.2) rest = d ++ pr :: rest
    rw [dictInsert_of_not_mem _ hk, ih (d ++ [(pr.1, pr.2)]) hnd.2]
    · simp
    · intro k hkr
      have hkmem : k ∈ (pr :: rest).map Prod.fst := by
        simp only [List.map_cons, List.mem_cons]
        exact Or.inr hkr
      simp only [List.map_append, List.mem_append]
      rintro (h' | h')
      · exact hdisj k hkmem h'
      · simp at h'
        subst h'
        exact hnd.1 hkr

theorem dictOf_eq_self {l : List (K × V)} (hnd : (l.map Prod.fst).Nodup) :
    dictOf l = l := by
  have := dictUpd_eq_append (l := l) [] hnd (by simp)
  simpa [dictOf] using this

end Dict

/-! ## Sequential `Option`-valued traversal

Each Python loop that fills an array aborts at the first raised exception;
`mapO` models one such loop. -/

/-- Apply `f` to every element in order, aborting at the first failure. -/
def mapO {α β : Type} (f : α → Option β) : List α → Option (List β)
  | [] => some []
  | a :: as =>
    match f a with
    | none => none
    | some b =>
      match mapO f as with
      | none => none
      | some bs => some (b :: bs)

section MapO

variable {α β : Type} {f : α → Option β}

theorem mapO_length {l : List α} {ys : List β}
    (h : mapO f l = some ys) : ys.length = l.length := by
  induction l generalizing ys with
  | nil =>
    simp only [mapO] at h
    cases h
    rfl
  | cons a as ih =>
    simp only [mapO] at h
    cases hfa : f a with
    | none => rw [hfa] at h; cases h
    | some b =>
      rw [hfa] at h
      cases hrest : mapO f as with
      | none => rw [hrest] at h; cases h
      | some bs =>
        rw [hrest] at h
        cases h
        simp [ih hrest]

theorem mapO_some_of_mem {l : List α} {ys : List β} {a : α}
    (h : mapO f l = some ys) (ha : a ∈ l) : ∃ b, f a = some b := by
  induction l generalizing ys with
  | nil => cases ha
  | cons x as ih =>
    simp only [mapO] at h
    cases hfa : f x with
    | none => rw [hfa] at h; cases h
    | some b =>
      rw [hfa] at h
      cases hrest : mapO f as with
      | none => rw [hrest] at h; cases h
      | some bs =>
        rcases List.mem_cons.1 ha with rfl | ha'
        · exact ⟨b, hfa⟩
        · exact ih hrest ha'

theorem mapO_none_of_mem {l : List α} {a : α}
    (ha : a ∈ l) (hfa : f a = none) : mapO f l = none := by
  induction l with
  | nil => cases ha
  | cons x as ih =>
    rcases List.mem_cons.1 ha with rfl | ha'
    · simp [mapO, hfa]
    · simp only [mapO]
      cases hfx : f x with
      | none => rfl
      | some b => rw [ih ha']

theorem mapO_mem_of_mem {l : List α} {ys : List β} {a : α} {b : β}
    (h : mapO f l = some ys) (ha : a ∈ l) (hfa : f a = some b) : b ∈ ys := by
  induction l generalizing ys with
  | nil => cases ha
  | cons x as ih =>
    simp only [mapO] at h
    cases hfx : f x with
    | none => rw [hfx] at h; cases h
    | some c =>
      rw [hfx] at h
      cases hrest : mapO f as with
      | none => rw [hrest] at h; cases h
      | some bs =>
        rw [hrest] at h
        cases h
        rcases List.mem_cons.1 ha with rfl | ha'
        · rw [hfa] at hfx
          cases hfx
          exact List.mem_cons_self _ _
        · exact List.mem_cons_of_mem _ (ih hrest ha')

theorem mapO_mem_rev {l : List α} {ys : List β} {b : β}
    (h : mapO f l = some ys) (hb : b ∈ ys) : ∃ a ∈ l, f a = some b := by
  induction l generalizing ys with
  | nil =>
    simp only [mapO] at h
    cases h
    cases hb
  | cons x as ih =>
    simp only [mapO] at h
    cases hfx : f x with
    | none => rw [hfx] at h; cases h
    | some c =>
      rw [hfx] at h
      cases hrest : mapO f as with
      | none => rw [hrest] at h; cases h
      | some bs =>
        rw [hrest] at h
        cases h
        rcases List.mem_cons.1 hb with rfl | hb'
        · exact ⟨x, List.mem_cons_self _ _, hfx⟩
        · rcases ih hrest hb' with ⟨a, ha, hfa⟩
          exact ⟨a, List.mem_cons_of_mem _ ha, hfa⟩

theorem mapO_get {l : List α} {ys : List β}
    (h : mapO f l = some ys) (i : ℕ) (hi : i < l.length)
    (hi' : i < ys.length) :
    f (l.get ⟨i, hi⟩) = some (ys.get ⟨i, hi'⟩) := by
  induction l generalizing ys i with
  | nil => cases hi
  | cons x as ih =>
    simp only [mapO] at h
    cases hfx : f x with
    | none => rw [hfx] at h; cases h
    | some c =>
      rw [hfx] at h
      cases hrest : mapO f as with
      | none => rw [hrest] at h; cases h
      | some bs =>
        rw [hrest] at h
        cases h
        cases i with
        | zero => simpa using hfx
        | succ j =>
          exact ih hrest j (Nat.lt_of_succ_lt_succ hi)
            (Nat.lt_of_succ_lt_succ hi')

end MapO

/-! ## Images and the filesystem -/

/-- A (64, 64, 3) array of pixels, one slot of an image block.  Entries are
idealised `float32` values. -/
def Image : Type := Fin 64 → Fin 64 → Fin 3 → ℚ

instance : Inhabited Image := ⟨fun _ _ _ => 0⟩

/-- A raster decoded by `imread`: either a 3-dimensional 64×64×3 array or a
2-dimensional (grayscale) 64×64 array (`img.ndim == 2`). -/
inductive RawImage : Type
  | rgb (px : Image)
  | gray (px : Fin 64 → Fin 64 → ℚ)

/-- Store one decoded image into a (64, 64, 3) block slot.  A 2-dimensional
image is first reshaped to (64, 64, 1) (`img.shape = (64, 64, 1)`); numpy
assignment then broadcasts the single channel across the 3-channel slot. -/
def storeImg : RawImage → Image
  | .rgb px => px
  | .gray px => fun i j _ => px i j

/-- The filesystem under the dataset root, as consumed by the loader.
`readLines q` is opening the text file at path `q` and iterating its lines
(without trailing newlines); `readImage q` is `imread(q)`; `listDir q` is
`os.listdir(q)`.  `none` models a raised `IOError`/decode error. -/
structure FS : Type where
  readLines : String → Option (List String)
  readImage : String → Option RawImage
  listDir : String → Option (List String)

/-- `os.path.join` for relative components. -/
def joinPath (a b : String) : String := a ++ "/" ++ b

def wnidsPath (p : String) : String := joinPath p "wnids.txt"

def wordsPath (p : String) : String := joinPath p "words.txt"

/-- `os.path.join(path, 'train', wnid, '%s_boxes.txt' % wnid)`. -/
def boxesPath (p w : String) : String :=
  joinPath (joinPath (joinPath p "train") w) (w ++ "_boxes.txt")

/-- `os.path.join(path, 'train', wnid, 'images', img_file)`. -/
def trainImgPath (p w f : String) : String :=
  joinPath (joinPath (joinPath (joinPath p "train") w) "images") f

def valAnnPath (p : String) : String :=
  joinPath (joinPath p "val") "val_annotations.txt"

def valImgPath (p f : String) : String :=
  joinPath (joinPath (joinPath p "val") "images") f

def testImagesDir (p : String) : String :=
  joinPath (joinPath p "test") "images"

def testImgPath (p f : String) : String := joinPath (testImagesDir p) f

/-! ## The loader, section by section -/

/-- Lines 50–51: read `wnids.txt` and strip each line. -/
def readWnids (fs : FS) (p : String) : Option (List String) :=
  (fs.readLines (wnidsPath p)).map (fun ls => ls.map pstrip)

/-- Line 54: `wnid_to_label = {wnid: i for i, wnid in enumerate(wnids)}`. -/
def wnidToLabel (wnids : List String) : List (String × ℕ) :=
  dictOf (wnids.enum.map (fun pr => (pr.2, pr.1)))

/-- Line 55: `label_to_wnid = {v: k for k, v in wnid_to_label.items()}`. -/
def labelToWnid (w2l : List (String × ℕ)) : List (ℕ × String) :=
  dictOf (w2l.map (fun pr => (pr.2, pr.1)))

/-- One line of `words.txt`: `"<wnid>\t<syn1>, <syn2>, ..."`.
`dict(line.split('\t') for line in f)` raises unless every line splits into
exactly two fields; the value is then split on commas and stripped. -/
def parseWordsLine (s : String) : Option (String × List String) :=
  match tabSplit s with
  | [w, ws] => some (w, (commaSplit ws).map pstrip)
  | _ => none

/-- Lines 58–62: build `wnid_to_words` from `words.txt` and look every wnid
up in it (`KeyError` when a wnid has no entry). -/
def readClassNames (fs : FS) (p : String) (wnids : List String) :
    Option (List (List String)) :=
  match fs.readLines (wordsPath p) with
  | none => none
  | some wordLines =>
    match mapO parseWordsLine wordLines with
    | none => none
    | some entries => mapO (dictLookup (dictOf entries)) wnids

/-- Lines 72–88: load one training class `w`: read its boxes manifest, take
the first tab field of every line as a filename, fill the label block with
`wnid_to_label[wnid]`, and decode every listed image. -/
def loadTrainClass (fs : FS) (p : String) (w2l : List (String × ℕ))
    (w : String) : Option (List Image × List ℕ) :=
  match fs.readLines (boxesPath p w) with
  | none => none
  | some blines =>
    match dictLookup w2l w with
    | none => none
    | some label =>
      match mapO (fun f => (fs.readImage (trainImgPath p w f)).map storeImg)
          (blines.map firstTabField) with
      | none => none
      | some imgs =>
        some (imgs, List.replicate (blines.map firstTabField).length label)

/-- Lines 69–92: load every class of `train_wnids` and concatenate the
per-class blocks.  `np.concatenate` raises on an empty list of blocks. -/
def trainPart (fs : FS) (p : String) (w2l : List (String × ℕ))
    (tw : List String) : Option (List Image × List ℕ) :=
  match mapO (loadTrainClass fs p w2l) tw with
  | none => none
  | some blocks =>
    if tw.isEmpty then none
    else some ((blocks.map Prod.fst).flatten, (blocks.map Prod.snd).flatten)

/-- One line of `val_annotations.txt`: `img_file, wnid = line.split('\t')[:2]`
raises unless the line has at least two tab-separated fields. -/
def parseValLine (s : String) : Option (String × String) :=
  match tabSplit s with
  | f :: w :: _ => some (f, w)
  | _ => none

/-- Lines 96–113: parse `val_annotations.txt`, build `y_val` by looking
every annotated wnid up in `wnid_to_label`, then decode every listed
validation image. -/
def valPart (fs : FS) (p : String) (w2l : List (String × ℕ)) :
    Option (List Image × List ℕ) :=
  match fs.readLines (valAnnPath p) with
  | none => none
  | some vlines =>
    match mapO parseValLine vlines with
    | none => none
    | some pairs =>
      match mapO (fun pr => dictLookup w2l pr.2) pairs with
      | none => none
      | some yv =>
        match mapO
            (fun pr => (fs.readImage (valImgPath p pr.1)).map storeImg)
            pairs with
        | none => none
        | some xv => some (xv, yv)

/-- Lines 118–130: list `test/images/`, decode every file, and record each
image's full joined path as its name. -/
def testPart (fs : FS) (p : String) : Option (List Image × List String) :=
  match fs.listDir (testImagesDir p) with
  | none => none
  | some listing =>
    match mapO (fun f => (fs.readImage (testImgPath p f)).map storeImg)
        listing with
    | none => none
    | some xt => some (xt, listing.map (testImgPath p))

/-- Everything the loader has in hand after line 130, before mean
subtraction and the final discard of training data. -/
structure RawLoad : Type where
  class_names : List (List String)
  wnids : List String
  label_to_wnid : List (ℕ × String)
  X_train : List Image
  y_train : List ℕ
  X_val : Option (List Image)
  y_val : Option (List ℕ)
  X_test : Option (List Image)
  test_image_names : Option (List String)
  deriving Inhabited

/-- Lines 50–130 of `load_tiny_imagenet`: metadata, training block
(truncated to the first `debug_nclass` classes when `debug`), validation
block when `is_training`, test block otherwise. -/
def loadRaw (fs : FS) (p : String) (is_training debug : Bool)
    (debug_nclass : ℕ) : Option RawLoad :=
  match readWnids fs p with
  | none => none
  | some wnids =>
    match readClassNames fs p wnids with
    | none => none
    | some cn =>
      match trainPart fs p (wnidToLabel wnids)
          (if debug then wnids.take debug_nclass else wnids) with
      | none => none
      | some tr =>
        match (if is_training then (valPart fs p (wnidToLabel wnids)).map some
               else some none :
            Option (Option (List Image × List ℕ))) with
        | none => none
        | some vres =>
          match (if is_training then some none
                 else (testPart fs p).map some :
              Option (Option (List Image × List String))) with
          | none => none
          | some tres =>
            some { class_names := cn
                   wnids := wnids
                   label_to_wnid := labelToWnid (wnidToLabel wnids)
                   X_train := tr.1
                   y_train := tr.2
                   X_val := vres.map Prod.fst
                   y_val := vres.map Prod.snd
                   X_test := tres.map Prod.fst
                   test_image_names := tres.map Prod.snd }

/-- `X_train.mean(axis=0)`: the element-wise mean over the first axis. -/
def meanImage (xs : List Image) : Image :=
  fun i j k => (xs.map (fun im => im i j k)).sum / (xs.length : ℚ)

/-- `block -= mean_image[None]`: broadcast element-wise subtraction. -/
def subMean (m : Image) (xs : List Image) : List Image :=
  xs.map (fun im => fun i j k => im i j k - m i j k)

/-- The dictionary `load_tiny_imagenet` returns (lines 145–155).  `y_test`
is always `None` in the source and is omitted. -/
structure Result : Type where
  class_names : List (List String)
  X_train : Option (List Image)
  y_train : Option (List ℕ)
  X_val : Option (List Image)
  y_val : Option (List ℕ)
  X_test : Option (List Image)
  mean_image : Option Image
  label_to_wnid : List (ℕ × String)
  test_image_names : Option (List String)
  deriving Inhabited

/-- Lines 132–155: optionally compute the mean of the (already loaded)
training block and subtract it from the populated splits, then discard the
training block when not `is_training`, and assemble the result. -/
def finishLoad (is_training subtract_mean : Bool) (rw : RawLoad) : Result :=
  if subtract_mean then
    let m := meanImage rw.X_train
    if is_training then
      { class_names := rw.class_names
        X_train := some (subMean m rw.X_train)
        y_train := some rw.y_train
        X_val := rw.X_val.map (subMean m)
        y_val := rw.y_val
        X_test := rw.X_test
        mean_image := some m
        label_to_wnid := rw.label_to_wnid
        test_image_names := rw.test_image_names }
    else
      { class_names := rw.class_names
        X_train := none
        y_train := none
        X_val := rw.X_val
        y_val := rw.y_val
        X_test := rw.X_test.map (subMean m)
        mean_image := some m
        label_to_wnid := rw.label_to_wnid
        test_image_names := rw.test_image_names }
  else
    if is_training then
      { class_names := rw.class_names
        X_train := some rw.X_train
        y_train := some rw.y_train
        X_val := rw.X_val
        y_val := rw.y_val
        X_test := rw.X_test
        mean_image := none
        label_to_wnid := rw.label_to_wnid
        test_image_names := rw.test_image_names }
    else
      { class_names := rw.class_names
        X_train := none
        y_train := none
        X_val := rw.X_val
        y_val := rw.y_val
        X_test := rw.X_test
        mean_image := none
        label_to_wnid := rw.label_to_wnid
        test_image_names := rw.test_image_names }

/-- `load_tiny_imagenet(path, is_training, np.float32, subtract_mean,
debug, debug_nclass)` over the filesystem `fs`; `none` models an exception
propagating to the caller. -/
def load (fs : FS) (p : String) (is_training subtract_mean debug : Bool)
    (debug_nclass : ℕ) : Option Result :=
  (loadRaw fs p is_training debug debug_nclass).map
    (finishLoad is_training subtract_mean)

/-! ## Derived views of a filesystem, used to state the claims -/

/-- The stripped class identifiers of `wnids.txt` (empty when the file is
unreadable). -/
def wnidsOf (fs : FS) (p : String) : List String :=
  (readWnids fs p).getD []

/-- The classes the training loop iterates over: all of `wnids.txt`, or the
first `debug_nclass` when `debug`. -/
def trainWnidsOf (fs : FS) (p : String) (debug : Bool) (n : ℕ) :
    List String :=
  if debug then (wnidsOf fs p).take n else wnidsOf fs p

/-- The image filenames listed by a class's boxes manifest. -/
def boxFilenames (fs : FS) (p w : String) : List String :=
  ((fs.readLines (boxesPath p w)).getD []).map firstTabField

/-- The number of training images a class's boxes manifest lists. -/
def numClassImages (fs : FS) (p w : String) : ℕ :=
  ((fs.readLines (boxesPath p w)).getD []).length

/-- The validation image filenames listed by `val_annotations.txt`. -/
def valFilenames (fs : FS) (p : String) : List String :=
  ((fs.readLines (valAnnPath p)).getD []).map firstTabField

/-- Every file the loader must have been able to read and decode: the two
metadata manifests, every (possibly debug-truncated) training class's boxes
manifest and listed images, and — depending on the mode — the validation
manifest and images, or the test directory listing and images. -/
def ReadsOk (fs : FS) (p : String) (is_training debug : Bool) (n : ℕ) :
    Prop :=
  (fs.readLines (wnidsPath p)).isSome = true ∧
  (fs.readLines (wordsPath p)).isSome = true ∧
  (∀ w ∈ trainWnidsOf fs p debug n,
    (fs.readLines (boxesPath p w)).isSome = true ∧
    ∀ f ∈ boxFilenames fs p w,
      (fs.readImage (trainImgPath p w f)).isSome = true) ∧
  (is_training = true →
    (fs.readLines (valAnnPath p)).isSome = true ∧
    ∀ f ∈ valFilenames fs p,
      (fs.readImage (valImgPath p f)).isSome = true) ∧
  (is_training = false →
    (fs.listDir (testImagesDir p)).isSome = true ∧
    ∀ f ∈ (fs.listDir (testImagesDir p)).getD [],
      (fs.readImage (testImgPath p f)).isSome = true)

/-- The label block obtained by concatenating, for the sizes
`sizes = [N₀, N₁, ...]`, the blocks `replicate N₀ s ++ replicate N₁ (s+1)
++ ...` — the shape the training label block must have. -/
def labelBlocksFrom : ℕ → List ℕ → List ℕ
  | _, [] => []
  | s, m :: rest => List.replicate m s ++ labelBlocksFrom (s + 1) rest

theorem labelBlocksFrom_length (s : ℕ) (sizes : List ℕ) :
    (labelBlocksFrom s sizes).length = sizes.sum := by
  induction sizes generalizing s with
  | nil => rfl
  | cons m rest ih =>
    simp [labelBlocksFrom, ih]

theorem labelBlocksFrom_count_eq_zero {k s : ℕ} (sizes : List ℕ)
    (h : k < s) : (labelBlocksFrom s sizes).count k = 0 := by
  induction sizes generalizing s with
  | nil => rfl
  | cons m rest ih =>
    simp only [labelBlocksFrom, List.count_append]
    rw [List.count_eq_zero.2, ih (Nat.lt_succ_of_lt h)]
    intro hmem
    exact absurd (List.eq_of_mem_replicate hmem) (Nat.ne_of_lt h)

theorem labelBlocksFrom_count (s j : ℕ) (sizes : List ℕ)
    (hj : j < sizes.length) :
    (labelBlocksFrom s sizes).count (s + j) = sizes.get ⟨j, hj⟩ := by
  induction sizes generalizing s j with
  | nil => cases hj
  | cons m rest ih =>
    cases j with
    | zero =>
      simp only [labelBlocksFrom, List.count_append, Nat.add_zero]
      rw [List.count_replicate_self,
        labelBlocksFrom_count_eq_zero rest (Nat.lt_succ_self s)]
      simp
    | succ j' =>
      have hj' : j' < rest.length := Nat.lt_of_succ_lt_succ hj
      have harith : s + (j' + 1) = (s + 1) + j' := by omega
      simp only [labelBlocksFrom, List.count_append]
      rw [List.count_eq_zero.2, harith, ih (s + 1) j' hj']
      · simp
      · intro hmem
        have := List.eq_of_mem_replicate hmem
        omega

/-! ## Lookup lemmas for the enumeration dictionaries -/

theorem find?_enumFrom_swap {α : Type} [DecidableEq α] {l : List α}
    (hnd : l.Nodup) (s i : ℕ) (hi : i < l.length) :
    ((l.enumFrom s).map (fun pr => (pr.2, pr.1))).find?
      (fun pr => pr.1 = l.get ⟨i, hi⟩) = some (l.get ⟨i, hi⟩, s + i) := by
  induction l generalizing s i with
  | nil => cases hi
  | cons a as ih =>
    cases i with
    | zero =>
      simp [List.enumFrom, List.find?]
    | succ j =>
      have hj : j < as.length := Nat.lt_of_succ_lt_succ hi
      have hget : (a :: as).get ⟨j + 1, hi⟩ = as.get ⟨j, hj⟩ := rfl
      have hne : ¬(a = as.get ⟨j, hj⟩) := by
        intro he
        exact (List.nodup_cons.1 hnd).1 (he ▸ List.get_mem as j hj)
      simp only [List.enumFrom, List.map_cons]
      rw [hget, List.find?_cons_of_neg, ih (List.nodup_cons.1 hnd).2 (s + 1) j hj]
      · have : s + 1 + j = s + (j + 1) := by omega
        rw [this]
      · simpa using hne

theorem find?_enumFrom {α : Type} {l : List α} (s i : ℕ)
    (hi : i < l.length) :
    (l.enumFrom s).find? (fun pr => pr.1 = s + i) =
      some (s + i, l.get ⟨i, hi⟩) := by
  induction l generalizing s i with
  | nil => cases hi
  | cons a as ih =>
    cases i with
    | zero =>
      simp [List.enumFrom, List.find?]
    | succ j =>
      have hj : j < as.length := Nat.lt_of_succ_lt_succ hi
      have harith : s + (j + 1) = (s + 1) + j := by omega
      simp only [List.enumFrom]
      rw [List.find?_cons_of_neg, harith, ih (s + 1) j hj]
      · rfl
      · simp only [decide_eq_true_eq]
        omega

theorem keys_enumSwap {α : Type} (l : List α) :
    ((l.enum.map (fun pr => (pr.2, pr.1))).map Prod.fst) = l := by
  rw [List.map_map]
  exact List.enum_map_snd l

theorem wnidToLabel_eq_of_nodup {l : List String} (hnd : l.Nodup) :
    wnidToLabel l = l.enum.map (fun pr => (pr.2, pr.1)) := by
  unfold wnidToLabel
  apply dictOf_eq_self
  rw [keys_enumSwap]
  exact hnd

theorem dictLookup_wnidToLabel_get {l : List String} (hnd : l.Nodup)
    (i : ℕ) (hi : i < l.length) :
    dictLookup (wnidToLabel l) (l.get ⟨i, hi⟩) = some i := by
  rw [wnidToLabel_eq_of_nodup hnd]
  unfold dictLookup
  have := find?_enumFrom_swap hnd 0 i hi
  rw [show l.enum = l.enumFrom 0 from rfl, this]
  simp

theorem dictLookup_wnidToLabel_none {l : List String} {w : String}
    (hw : w ∉ l) : dictLookup (wnidToLabel l) w = none := by
  apply dictLookup_eq_none_of_not_mem
  intro hmem
  apply hw
  have := mem_keys_dictOf hmem
  rwa [keys_enumSwap] at this

theorem dictLookup_labelToWnid {l : List String} (hnd : l.Nodup)
    (i : ℕ) (hi : i < l.length) :
    dictLookup (labelToWnid (wnidToLabel l)) i = some (l.get ⟨i, hi⟩) := by
  rw [wnidToLabel_eq_of_nodup hnd]
  unfold labelToWnid
  rw [List.map_map]
  have hmaps : l.enum.map
      ((fun pr : String × ℕ => (pr.2, pr.1)) ∘
        (fun pr : ℕ × String => (pr.2, pr.1))) = l.enum := by
    rw [show ((fun pr : String × ℕ => (pr.2, pr.1)) ∘
        (fun pr : ℕ × String => (pr.2, pr.1))) = id from rfl, List.map_id]
  rw [hmaps, dictOf_eq_self]
  · unfold dictLookup
    have := find?_enumFrom (l := l) 0 i hi
    rw [show l.enum = l.enumFrom 0 from rfl]
    simp only [Nat.zero_add] at this
    rw [this]
    rfl
  · rw [List.enum_map_fst]
    exact List.nodup_range _

/-! ## Characterisations of the loader stages -/

theorem loadTrainClass_eq_some {fs : FS} {p : String}
    {w2l : List (String × ℕ)} {w : String} {pr : List Image × List ℕ}
    (h : loadTrainClass fs p w2l w = some pr) :
    ∃ blines label imgs,
      fs.readLines (boxesPath p w) = some blines ∧
      dictLookup w2l w = some label ∧
      mapO (fun f => (fs.readImage (trainImgPath p w f)).map storeImg)
        (blines.map firstTabField) = some imgs ∧
      pr = (imgs, List.replicate (blines.map firstTabField).length label) := by
  unfold loadTrainClass at h
  split at h
  · cases h
  next blines heq =>
    split at h
    · cases h
    next label hlab =>
      split at h
      · cases h
      next imgs himgs =>
        cases h
        exact ⟨blines, label, imgs, heq, hlab, himgs, rfl⟩

theorem trainPart_eq_some {fs : FS} {p : String} {w2l : List (String × ℕ)}
    {tw : List String} {tr : List Image × List ℕ}
    (h : trainPart fs p w2l tw = some tr) :
    ∃ blocks,
      mapO (loadTrainClass fs p w2l) tw = some blocks ∧
      tw.isEmpty = false ∧
      tr = ((blocks.map Prod.fst).flatten, (blocks.map Prod.snd).flatten) := by
  unfold trainPart at h
  split at h
  · cases h
  next blocks hblocks =>
    split at h
    · cases h
    next hne =>
      cases h
      exact ⟨blocks, hblocks, Bool.of_not_eq_true hne, rfl⟩

theorem valPart_eq_some {fs : FS} {p : String} {w2l : List (String × ℕ)}
    {vp : List Image × List ℕ} (h : valPart fs p w2l = some vp) :
    ∃ vlines pairs yv xv,
      fs.readLines (valAnnPath p) = some vlines ∧
      mapO parseValLine vlines = some pairs ∧
      mapO (fun pr => dictLookup w2l pr.2) pairs = some yv ∧
      mapO (fun pr => (fs.readImage (valImgPath p pr.1)).map storeImg)
        pairs = some xv ∧
      vp = (xv, yv) := by
  unfold valPart at h
  split at h
  · cases h
  next vlines hlines =>
    split at h
    · cases h
    next pairs hpairs =>
      split at h
      · cases h
      next yv hyv =>
        split at h
        · cases h
        next xv hxv =>
          cases h
          exact ⟨vlines, pairs, yv, xv, hlines, hpairs, hyv, hxv, rfl⟩

theorem testPart_eq_some {fs : FS} {p : String}
    {tp : List Image × List String} (h : testPart fs p = some tp) :
    ∃ listing xt,
      fs.listDir (testImagesDir p) = some listing ∧
      mapO (fun f => (fs.readImage (testImgPath p f)).map storeImg)
        listing = some xt ∧
      tp = (xt, listing.map (testImgPath p)) := by
  unfold testPart at h
  split at h
  · cases h
  next listing hlist =>
    split at h
    · cases h
    next xt hxt =>
      cases h
      exact ⟨listing, xt, hlist, hxt, rfl⟩

theorem readClassNames_eq_some {fs : FS} {p : String} {wnids : List String}
    {cn : List (List String)} (h : readClassNames fs p wnids = some cn) :
    ∃ wordLines entries,
      fs.readLines (wordsPath p) = some wordLines ∧
      mapO parseWordsLine wordLines = some entries ∧
      mapO (dictLookup (dictOf entries)) wnids = some cn := by
  unfold readClassNames at h
  split at h
  · cases h
  next wordLines hlines =>
    split at h
    · cases h
    next entries hentries =>
      exact ⟨wordLines, entries, hlines, hentries, h⟩

theorem loadRaw_eq_some {fs : FS} {p : String} {it dbg : Bool} {n : ℕ}
    {rw : RawLoad} (h : loadRaw fs p it dbg n = some rw) :
    ∃ wnids cn tr vres tres,
      readWnids fs p = some wnids ∧
      readClassNames fs p wnids = some cn ∧
      trainPart fs p (wnidToLabel wnids)
        (if dbg then wnids.take n else wnids) = some tr ∧
      (if it then (valPart fs p (wnidToLabel wnids)).map some
       else some none) = some vres ∧
      (if it then some none else (testPart fs p).map some) = some tres ∧
      rw = { class_names := cn
             wnids := wnids
             label_to_wnid := labelToWnid (wnidToLabel wnids)
             X_train := tr.1
             y_train := tr.2
             X_val := vres.map Prod.fst
             y_val := vres.map Prod.snd
             X_test := tres.map Prod.fst
             test_image_names := tres.map Prod.snd } := by
  unfold loadRaw at h
  split at h
  · cases h
  next wnids hwnids =>
    split at h
    · cases h
    next cn hcn =>
      split at h
      · cases h
      next tr htr =>
        split at h
        · cases h
        next vres hvres =>
          split at h
          · cases h
          next tres htres =>
            cases h
            exact ⟨wnids, cn, tr, vres, tres, hwnids, hcn, htr, hvres,
              htres, rfl⟩

theorem load_eq_some {fs : FS} {p : String} {it sm dbg : Bool} {n : ℕ}
    {r : Result} (h : load fs p it sm dbg n = some r) :
    ∃ rw, loadRaw fs p it dbg n = some rw ∧ r = finishLoad it sm rw := by
  unfold load at h
  cases hraw : loadRaw fs p it dbg n with
  | none => rw [hraw] at h; cases h
  | some rw =>
    rw [hraw] at h
    cases h
    exact ⟨rw, rfl, rfl⟩

theorem finishLoad_y_train_true (sm : Bool) (rw : RawLoad) :
    (finishLoad true sm rw).y_train = some rw.y_train := by
  cases sm <;> rfl

theorem finishLoad_y_val (it sm : Bool) (rw : RawLoad) :
    (finishLoad it sm rw).y_val = rw.y_val := by
  cases it <;> cases sm <;> rfl

theorem finishLoad_label_to_wnid (it sm : Bool) (rw : RawLoad) :
    (finishLoad it sm rw).label_to_wnid = rw.label_to_wnid := by
  cases it <;> cases sm <;> rfl

theorem parseValLine_fst {s : String} {pr : String × String}
    (h : parseValLine s = some pr) : pr.1 = firstTabField s := by
  unfold parseValLine at h
  split at h
  next f w rest heq =>
    cases h
    rw [firstTabField, heq]
    rfl
  next => cases h

/-- The training label block is the concatenation, class by class, of
constant blocks whose labels follow the positions the lookup dictionary
assigns. -/
theorem trainBlocks_snd (fs : FS) (p : String) (w2l : List (String × ℕ))
    (tw : List String) :
    ∀ (s : ℕ) (blocks : List (List Image × List ℕ)),
      (∀ i (hi : i < tw.length),
        dictLookup w2l (tw.get ⟨i, hi⟩) = some (s + i)) →
      mapO (loadTrainClass fs p w2l) tw = some blocks →
      (blocks.map Prod.snd).flatten =
        labelBlocksFrom s (tw.map (numClassImages fs p)) := by
  induction tw with
  | nil =>
    intro s blocks _ h
    simp only [mapO] at h
    cases h
    rfl
  | cons w rest ih =>
    intro s blocks hlook h
    simp only [mapO] at h
    cases hw : loadTrainClass fs p w2l w with
    | none => rw [hw] at h; cases h
    | some pr =>
      rw [hw] at h
      cases hrest : mapO (loadTrainClass fs p w2l) rest with
      | none => rw [hrest] at h; cases h
      | some bs =>
        rw [hrest] at h
        cases h
        obtain ⟨blines, label, imgs, hb, hlab, _, hpr⟩ :=
          loadTrainClass_eq_some hw
        have hlab0 : dictLookup w2l w = some (s + 0) :=
          hlook 0 (Nat.succ_pos _)
        rw [hlab] at hlab0
        have hlabel : label = s := by
          cases hlab0
          omega
        have hN : numClassImages fs p w = blines.length := by
          rw [numClassImages, hb]
          rfl
        have hshift : ∀ i (hi : i < rest.length),
            dictLookup w2l (rest.get ⟨i, hi⟩) = some (s + 1 + i) := by
          intro i hi
          have := hlook (i + 1) (Nat.succ_lt_succ hi)
          rw [show s + (i + 1) = s + 1 + i from by omega] at this
          exact this
        have htail := ih (s + 1) bs hshift hrest
        simp only [List.map_cons, List.flatten_cons, labelBlocksFrom, htail,
          hpr, hN, List.length_map]
        rw [hlabel]

/-! ## Concrete fixture filesystems for the witnesses -/

/-- A complete two-class fixture under root `d`: classes `a` (two training
images, one of them grayscale) and `b` (one training image), one validation
image annotated with class `b`, and two test images. -/
def fsGood : FS where
  readLines q :=
    if q = "d/wnids.txt" then some ["a", "b"]
    else if q = "d/words.txt" then some ["a\tapple", "b\tbanana, berry"]
    else if q = "d/train/a/a_boxes.txt" then
      some ["a1.jpg\t0\t0\t63\t63", "a2.jpg\t1\t1\t62\t62"]
    else if q = "d/train/b/b_boxes.txt" then some ["b1.jpg\t0\t0\t63\t63"]
    else if q = "d/val/val_annotations.txt" then
      some ["v1.jpg\tb\t0\t0\t63\t63"]
    else none
  readImage q :=
    if q = "d/train/a/images/a1.jpg" then some (.rgb (fun _ _ _ => 10))
    else if q = "d/train/a/images/a2.jpg" then some (.gray (fun _ _ => 4))
    else if q = "d/train/b/images/b1.jpg" then some (.rgb (fun _ _ _ => 20))
    else if q = "d/val/images/v1.jpg" then some (.gray (fun _ _ => 5))
    else if q = "d/test/images/t1.jpg" then some (.rgb (fun _ _ _ => 7))
    else if q = "d/test/images/t2.jpg" then some (.gray (fun _ _ => 9))
    else none
  listDir q :=
    if q = "d/test/images" then some ["t1.jpg", "t2.jpg"] else none

/-- `fsGood` with the annotated wnid of the single validation line replaced
by `c`, which is not listed in `wnids.txt`. -/
def fsBadVal : FS where
  readLines q :=
    if q = "d/val/val_annotations.txt" then some ["v1.jpg\tc\t0\t0\t63\t63"]
    else fsGood.readLines q
  readImage := fsGood.readImage
  listDir := fsGood.listDir

/-- A fixture whose metadata and test split are complete but whose training
split is entirely absent (no boxes manifest, no training images). -/
def fsNoTrain : FS where
  readLines q :=
    if q = "d/wnids.txt" then some ["a"]
    else if q = "d/words.txt" then some ["a\tapple"]
    else none
  readImage q :=
    if q = "d/test/images/t1.jpg" then some (.rgb (fun _ _ _ => 7))
    else none
  listDir q :=
    if q = "d/test/images" then some ["t1.jpg"] else none

/-- `fsNoTrain` with the training split added back. -/
def fsNoTrainFixed : FS where
  readLines q :=
    if q = "d/train/a/a_boxes.txt" then some ["a1.jpg\t0\t0\t63\t63"]
    else fsNoTrain.readLines q
  readImage q :=
    if q = "d/train/a/images/a1.jpg" then some (.rgb (fun _ _ _ => 10))
    else fsNoTrain.readImage q
  listDir := fsNoTrain.listDir

/-- The raw load of `fsGood` in training mode. -/
def rwGood : RawLoad := (loadRaw fsGood "d" true false 3).getD default

/-- The raw load of `fsGood` in test mode. -/
def rwGoodTest : RawLoad := (loadRaw fsGood "d" false false 3).getD default

/-- `fsGood` loaded with `is_training=True, subtract_mean=True`. -/
def resGoodMean : Result := (load fsGood "d" true true false 3).getD default

/-- `fsGood` loaded with `is_training=True, subtract_mean=False`. -/
def resGoodTrain : Result := (load fsGood "d" true false false 3).getD default

/-- `fsGood` loaded with `is_training=False, subtract_mean=False`. -/
def resGoodTest : Result := (load fsGood "d" false false false 3).getD default

/-- `fsGood` loaded with `debug=True, debug_nclass=1`. -/
def resGoodDebug : Result := (load fsGood "d" true false true 1).getD default

/-! ## The claims -/

/-- C1: for every call with `subtract_mean=True`, the returned `mean_image`
equals the element-wise mean over the first axis of the training image
block as loaded (before any subtraction), and every image array present in
the returned result (train and val when `is_training=True`, test when
`is_training=False`) equals its originally loaded pixels minus
`mean_image`, element-wise. -/
theorem C1_mean_subtraction (fs : FS) (p : String) (it dbg : Bool) (n : ℕ)
    (rw : RawLoad) (r : Result)
    (hraw : loadRaw fs p it dbg n = some rw)
    (_hne : 0 < rw.X_train.length)
    (hload : load fs p it true dbg n = some r) :
    ∃ m, r.mean_image = some m ∧
      (∀ i j k, m i j k =
        (rw.X_train.map (fun im => im i j k)).sum /
          (rw.X_train.length : ℚ)) ∧
      (it = true →
        r.X_train = some (rw.X_train.map
          (fun im => fun i j k => im i j k - m i j k)) ∧
        r.X_val = rw.X_val.map (fun xs =>
          xs.map (fun im => fun i j k => im i j k - m i j k))) ∧
      (it = false →
        r.X_test = rw.X_test.map (fun xs =>
          xs.map (fun im => fun i j k => im i j k - m i j k))) := by
  obtain ⟨rw2, hraw2, hr⟩ := load_eq_some hload
  rw [hraw] at hraw2
  cases hraw2
  subst hr
  refine ⟨meanImage rw.X_train, ?_, ?_, ?_, ?_⟩
  · cases it <;> rfl
  · intro i j k
    rfl
  · intro hit
    subst hit
    exact ⟨rfl, rfl⟩
  · intro hit
    subst hit
    rfl

theorem C1_mean_subtraction_witness :
    loadRaw fsGood "d" true false 3 = some rwGood ∧
    0 < rwGood.X_train.length ∧
    load fsGood "d" true true false 3 = some resGoodMean ∧
    ∃ m, resGoodMean.mean_image = some m ∧
      (∀ i j k, m i j k =
        (rwGood.X_train.map (fun im => im i j k)).sum /
          (rwGood.X_train.length : ℚ)) ∧
      (true = true →
        resGoodMean.X_train = some (rwGood.X_train.map
          (fun im => fun i j k => im i j k - m i j k)) ∧
        resGoodMean.X_val = rwGood.X_val.map (fun xs =>
          xs.map (fun im => fun i j k => im i j k - m i j k))) ∧
      (true = false →
        resGoodMean.X_test = rwGood.X_test.map (fun xs =>
          xs.map (fun im => fun i j k => im i j k - m i j k))) :=
  ⟨rfl, by decide, rfl,
    C1_mean_subtraction fsGood "d" true false 3 rwGood resGoodMean rfl
      (by decide) rfl⟩

/-- C2: for every fixture with K classes where class k has Nk training
images, a call with `is_training=True` and `debug=False` returns a training
label block of length ΣNk in which exactly Nk entries equal the index of
class k, the per-class blocks being concatenated in `wnids.txt` order
(distinct class identifiers assumed, as "K classes" presupposes). -/
theorem C2_train_label_blocks (fs : FS) (p : String) (sm : Bool) (n : ℕ)
    (r : Result)
    (hl : load fs p true sm false n = some r)
    (hnd : (wnidsOf fs p).Nodup) :
    ∃ ys, r.y_train = some ys ∧
      ys = labelBlocksFrom 0 ((wnidsOf fs p).map (numClassImages fs p)) ∧
      ys.length = ((wnidsOf fs p).map (numClassImages fs p)).sum ∧
      ∀ k (hk : k < (wnidsOf fs p).length),
        ys.count k = numClassImages fs p ((wnidsOf fs p).get ⟨k, hk⟩) := by
  obtain ⟨rw, hraw, hr⟩ := load_eq_some hl
  subst hr
  obtain ⟨wnids, cn, tr, vres, tres, hw, hcn, htr, hv, ht, hrw⟩ :=
    loadRaw_eq_some hraw
  have hwn : wnidsOf fs p = wnids := by
    rw [wnidsOf, hw]
    rfl
  rw [hwn] at hnd ⊢
  have hred : (if (false : Bool) then wnids.take n else wnids) = wnids := rfl
  rw [hred] at htr
  obtain ⟨blocks, hblocks, hemp, htr2⟩ := trainPart_eq_some htr
  have hlook : ∀ i (hi : i < wnids.length),
      dictLookup (wnidToLabel wnids) (wnids.get ⟨i, hi⟩) = some (0 + i) := by
    intro i hi
    rw [Nat.zero_add]
    exact dictLookup_wnidToLabel_get hnd i hi
  have hflat := trainBlocks_snd fs p (wnidToLabel wnids) wnids 0 blocks
    hlook hblocks
  have hy : rw.y_train = (blocks.map Prod.snd).flatten := by
    rw [hrw]
    show tr.2 = _
    rw [htr2]
  refine ⟨rw.y_train, ?_, ?_, ?_, ?_⟩
  · rw [finishLoad_y_train_true]
  · rw [hy, hflat]
  · rw [hy, hflat, labelBlocksFrom_length]
  · intro k hk
    have hk' : k < (wnids.map (numClassImages fs p)).length := by
      simpa using hk
    have hcount := labelBlocksFrom_count 0 k
      (wnids.map (numClassImages fs p)) hk'
    rw [Nat.zero_add] at hcount
    have hsz : (wnids.map (numClassImages fs p)).get ⟨k, hk'⟩ =
        numClassImages fs p (wnids.get ⟨k, hk⟩) := by
      simp [List.get_eq_getElem, List.getElem_map]
    rw [hy, hflat, hcount, hsz]

theorem C2_train_label_blocks_witness :
    load fsGood "d" true false false 3 = some resGoodTrain ∧
    (wnidsOf fsGood "d").Nodup ∧
    ∃ ys, resGoodTrain.y_train = some ys ∧
      ys = labelBlocksFrom 0
        ((wnidsOf fsGood "d").map (numClassImages fsGood "d")) ∧
      ys.length =
        ((wnidsOf fsGood "d").map (numClassImages fsGood "d")).sum ∧
      ∀ k (hk : k < (wnidsOf fsGood "d").length),
        ys.count k =
          numClassImages fsGood "d" ((wnidsOf fsGood "d").get ⟨k, hk⟩) :=
  ⟨rfl, by decide,
    C2_train_label_blocks fsGood "d" false 3 resGoodTrain rfl (by decide)⟩

/-- A successful raw load read every (possibly truncated) training class's
boxes manifest and decoded every image it lists — for every combination of
flags. -/
theorem loadRaw_train_reads {fs : FS} {p : String} {it dbg : Bool} {n : ℕ}
    {rw : RawLoad} (hraw : loadRaw fs p it dbg n = some rw) :
    ∀ w ∈ trainWnidsOf fs p dbg n,
      (fs.readLines (boxesPath p w)).isSome = true ∧
      ∀ f ∈ boxFilenames fs p w,
        (fs.readImage (trainImgPath p w f)).isSome = true := by
  obtain ⟨wnids, cn, tr, vres, tres, hw, hcn, htr, hv, ht, hrw⟩ :=
    loadRaw_eq_some hraw
  have hwn : wnidsOf fs p = wnids := by
    rw [wnidsOf, hw]
    rfl
  have htw : trainWnidsOf fs p dbg n =
      (if dbg then wnids.take n else wnids) := by
    rw [trainWnidsOf, hwn]
  obtain ⟨blocks, hblocks, _, _⟩ := trainPart_eq_some htr
  intro w hwmem
  rw [htw] at hwmem
  obtain ⟨pr, hpr⟩ := mapO_some_of_mem hblocks hwmem
  obtain ⟨blines, label, imgs, hb, hlab, himgs, hpr2⟩ :=
    loadTrainClass_eq_some hpr
  constructor
  · rw [hb]
    rfl
  · intro f hf
    rw [boxFilenames, hb] at hf
    simp only [Option.getD_some] at hf
    obtain ⟨b, hbf⟩ := mapO_some_of_mem himgs hf
    rcases Option.map_eq_some'.1 hbf with ⟨raw, hread, _⟩
    rw [hread]
    rfl

/-- C3 (amended): the loader reads the training manifests and training
images on every call — including `is_training=False` with
`subtract_mean=False` — so a result is returned only when they are all
present and decodable; with `is_training=False` the training blocks are
discarded from the result, not skipped. -/
theorem C3_training_always_read (fs : FS) (p : String) (it sm dbg : Bool)
    (n : ℕ) (h : (load fs p it sm dbg n).isSome = true) :
    ∀ w ∈ trainWnidsOf fs p dbg n,
      (fs.readLines (boxesPath p w)).isSome = true ∧
      ∀ f ∈ boxFilenames fs p w,
        (fs.readImage (trainImgPath p w f)).isSome = true := by
  obtain ⟨r, hr⟩ := Option.isSome_iff_exists.1 h
  obtain ⟨rw, hraw, _⟩ := load_eq_some hr
  exact loadRaw_train_reads hraw

theorem C3_training_always_read_witness :
    (load fsGood "d" false false false 3).isSome = true ∧
    ∀ w ∈ trainWnidsOf fsGood "d" false 3,
      (fsGood.readLines (boxesPath "d" w)).isSome = true ∧
      ∀ f ∈ boxFilenames fsGood "d" w,
        (fsGood.readImage (trainImgPath "d" w f)).isSome = true :=
  ⟨rfl, C3_training_always_read fsGood "d" false false false 3 rfl⟩

/-- C3 (counterexample): with `is_training=False` and `subtract_mean=False`
the claim says no training manifest or image is read, so the load would
have to succeed on `fsNoTrain`, whose metadata and test split are complete
and which differs from `fsNoTrainFixed` only in the training files.  It
fails on `fsNoTrain` and succeeds on `fsNoTrainFixed`: the training split
is read even in this mode. -/
theorem C3_counterexample :
    (load fsNoTrain "d" false false false 3).isNone = true ∧
    (load fsNoTrainFixed "d" false false false 3).isSome = true :=
  ⟨rfl, rfl⟩

/-- C4: for every i in range of the loaded classes, `label_to_wnid[i]`
equals the i-th identifier of `wnids.txt` (whitespace-trimmed, file order,
indices from 0) — the inverse of the class-identifier-to-index mapping
(distinct identifiers assumed, as "mapping" presupposes). -/
theorem C4_label_to_wnid_inverse (fs : FS) (p : String) (it sm dbg : Bool)
    (n : ℕ) (r : Result)
    (hl : load fs p it sm dbg n = some r)
    (hnd : (wnidsOf fs p).Nodup) :
    ∀ i (hi : i < (wnidsOf fs p).length),
      dictLookup r.label_to_wnid i = some ((wnidsOf fs p).get ⟨i, hi⟩) := by
  obtain ⟨rw, hraw, hr⟩ := load_eq_some hl
  subst hr
  obtain ⟨wnids, cn, tr, vres, tres, hw, _, _, _, _, hrw⟩ :=
    loadRaw_eq_some hraw
  have hwn : wnidsOf fs p = wnids := by
    rw [wnidsOf, hw]
    rfl
  rw [hwn] at hnd ⊢
  intro i hi
  rw [finishLoad_label_to_wnid, hrw]
  exact dictLookup_labelToWnid hnd i hi

theorem C4_label_to_wnid_inverse_witness :
    load fsGood "d" true false false 3 = some resGoodTrain ∧
    (wnidsOf fsGood "d").Nodup ∧
    ∀ i (hi : i < (wnidsOf fsGood "d").length),
      dictLookup resGoodTrain.label_to_wnid i =
        some ((wnidsOf fsGood "d").get ⟨i, hi⟩) :=
  ⟨rfl, by decide,
    C4_label_to_wnid_inverse fsGood "d" true false false 3 resGoodTrain rfl
      (by decide)⟩

/-- C5: for every call with `is_training=False`, the returned training and
validation blocks are `None`, `test_image_names` lists, in directory
order, the full joined path of every file of `test/images/`, the raw test
block holds exactly the decode of the file at each position, and the
returned test block has the same length as the name list. -/
theorem C5_test_mode (fs : FS) (p : String) (sm dbg : Bool) (n : ℕ)
    (r : Result) (hl : load fs p false sm dbg n = some r) :
    r.X_train = none ∧ r.y_train = none ∧ r.X_val = none ∧ r.y_val = none ∧
    ∃ L rawxs rw,
      fs.listDir (testImagesDir p) = some L ∧
      r.test_image_names = some (L.map (testImgPath p)) ∧
      loadRaw fs p false dbg n = some rw ∧
      mapO (fun f => (fs.readImage (testImgPath p f)).map storeImg) L =
        some rawxs ∧
      rw.X_test = some rawxs ∧
      ∃ xs, r.X_test = some xs ∧ xs.length = L.length := by
  obtain ⟨rw, hraw, hr⟩ := load_eq_some hl
  subst hr
  obtain ⟨wnids, cn, tr, vres, tres, hw, hcn, htr, hv, ht, hrw⟩ :=
    loadRaw_eq_some hraw
  have hv' : (some none : Option (Option (List Image × List ℕ))) =
      some vres := hv
  cases hv'
  have ht' : (testPart fs p).map some = some tres := ht
  obtain ⟨tp, htp, htres⟩ := Option.map_eq_some'.1 ht'
  subst htres
  obtain ⟨L, xt, hlist, hxt, htp2⟩ := testPart_eq_some htp
  subst htp2
  subst hrw
  have hlen : xt.length = L.length := mapO_length hxt
  cases sm with
  | false =>
    exact ⟨rfl, rfl, rfl, rfl, L, xt, _, hlist, rfl, hraw, hxt, rfl,
      xt, rfl, hlen⟩
  | true =>
    refine ⟨rfl, rfl, rfl, rfl, L, xt, _, hlist, rfl, hraw, hxt, rfl,
      subMean (meanImage tr.1) xt, rfl, ?_⟩
    rw [← hlen]
    exact List.length_map _ _

theorem C5_test_mode_witness :
    load fsGood "d" false false false 3 = some resGoodTest ∧
    (resGoodTest.X_train = none ∧ resGoodTest.y_train = none ∧
     resGoodTest.X_val = none ∧ resGoodTest.y_val = none ∧
     ∃ L rawxs rw,
       fsGood.listDir (testImagesDir "d") = some L ∧
       resGoodTest.test_image_names = some (L.map (testImgPath "d")) ∧
       loadRaw fsGood "d" false false 3 = some rw ∧
       mapO (fun f => (fsGood.readImage (testImgPath "d" f)).map storeImg)
         L = some rawxs ∧
       rw.X_test = some rawxs ∧
       ∃ xs, resGoodTest.X_test = some xs ∧ xs.length = L.length) :=
  ⟨rfl, C5_test_mode fsGood "d" false false 3 resGoodTest rfl⟩

/-- C6: a decoded image with only 2 dimensions is reshaped to (64,64,1) and
stored into the (64,64,3) destination slot — the single channel is
broadcast across all three channels — and every image stored in any of the
three splits' raw blocks is exactly `storeImg` of some decoded file. -/
theorem C6_grayscale_reshape (fs : FS) (p : String) (it dbg : Bool) (n : ℕ)
    (rw : RawLoad) (hraw : loadRaw fs p it dbg n = some rw) :
    (∀ (g : Fin 64 → Fin 64 → ℚ) (i j : Fin 64) (k : Fin 3),
      storeImg (RawImage.gray g) i j k = g i j) ∧
    (∀ im ∈ rw.X_train,
      ∃ q raw, fs.readImage q = some raw ∧ im = storeImg raw) ∧
    (∀ xs, rw.X_val = some xs → ∀ im ∈ xs,
      ∃ q raw, fs.readImage q = some raw ∧ im = storeImg raw) ∧
    (∀ xs, rw.X_test = some xs → ∀ im ∈ xs,
      ∃ q raw, fs.readImage q = some raw ∧ im = storeImg raw) := by
  obtain ⟨wnids, cn, tr, vres, tres, hw, hcn, htr, hv, ht, hrw⟩ :=
    loadRaw_eq_some hraw
  subst hrw
  obtain ⟨blocks, hblocks, _, htr2⟩ := trainPart_eq_some htr
  refine ⟨fun g i j k => rfl, ?_, ?_, ?_⟩
  · intro im him
    have him' : im ∈ (blocks.map Prod.fst).flatten := by
      have : tr.1 = (blocks.map Prod.fst).flatten := by rw [htr2]
      rwa [← this]
    obtain ⟨block, hbmem, himb⟩ := List.mem_flatten.1 him'
    obtain ⟨pr, hprmem, hprfst⟩ := List.mem_map.1 hbmem
    obtain ⟨w, hwmem, hwcls⟩ := mapO_mem_rev hblocks hprmem
    obtain ⟨blines, label, imgs, hb, hlab, himgs, hpr2⟩ :=
      loadTrainClass_eq_some hwcls
    have himgs' : im ∈ imgs := by
      rw [← hprfst] at himb
      rw [hpr2] at himb
      exact himb
    obtain ⟨f, hfmem, hfim⟩ := mapO_mem_rev himgs himgs'
    obtain ⟨raw, hread, hst⟩ := Option.map_eq_some'.1 hfim
    exact ⟨trainImgPath p w f, raw, hread, hst.symm⟩
  · intro xs hxs im him
    cases it with
    | false =>
      have hv' : (some none : Option (Option (List Image × List ℕ))) =
          some vres := hv
      cases hv'
      cases hxs
    | true =>
      have hv' : (valPart fs p (wnidToLabel wnids)).map some =
          some vres := hv
      obtain ⟨vp, hvp, hvres⟩ := Option.map_eq_some'.1 hv'
      subst hvres
      obtain ⟨vlines, pairs, yv, xv, hvl, hpairs, hyv, hxv, hvp2⟩ :=
        valPart_eq_some hvp
      have hxs' : some vp.1 = some xs := hxs
      cases hxs'
      have him' : im ∈ xv := by
        rw [hvp2] at him
        exact him
      obtain ⟨pr0, hprmem, hprim⟩ := mapO_mem_rev hxv him'
      obtain ⟨raw, hread, hst⟩ := Option.map_eq_some'.1 hprim
      exact ⟨valImgPath p pr0.1, raw, hread, hst.symm⟩
  · intro xs hxs im him
    cases it with
    | true =>
      have ht' : (some none : Option (Option (List Image × List String))) =
          some tres := ht
      cases ht'
      cases hxs
    | false =>
      have ht' : (testPart fs p).map some = some tres := ht
      obtain ⟨tp, htp, htres⟩ := Option.map_eq_some'.1 ht'
      subst htres
      obtain ⟨L, xt, hlist, hxt, htp2⟩ := testPart_eq_some htp
      have hxs' : some tp.1 = some xs := hxs
      cases hxs'
      have him' : im ∈ xt := by
        rw [htp2] at him
        exact him
      obtain ⟨f, hfmem, hfim⟩ := mapO_mem_rev hxt him'
      obtain ⟨raw, hread, hst⟩ := Option.map_eq_some'.1 hfim
      exact ⟨testImgPath p f, raw, hread, hst.symm⟩

theorem C6_grayscale_reshape_witness :
    loadRaw fsGood "d" true false 3 = some rwGood ∧
    ((∀ (g : Fin 64 → Fin 64 → ℚ) (i j : Fin 64) (k : Fin 3),
      storeImg (RawImage.gray g) i j k = g i j) ∧
    (∀ im ∈ rwGood.X_train,
      ∃ q raw, fsGood.readImage q = some raw ∧ im = storeImg raw) ∧
    (∀ xs, rwGood.X_val = some xs → ∀ im ∈ xs,
      ∃ q raw, fsGood.readImage q = some raw ∧ im = storeImg raw) ∧
    (∀ xs, rwGood.X_test = some xs → ∀ im ∈ xs,
      ∃ q raw, fsGood.readImage q = some raw ∧ im = storeImg raw)) :=
  ⟨rfl, C6_grayscale_reshape fsGood "d" true false 3 rwGood rfl⟩

/-- C7: the load is all-or-nothing — a result is returned only when every
required manifest read, directory listing and image decode succeeded
(failures abort the whole load, modelled by the `Option` result). -/
theorem C7_all_or_nothing (fs : FS) (p : String) (it sm dbg : Bool) (n : ℕ)
    (h : (load fs p it sm dbg n).isSome = true) :
    ReadsOk fs p it dbg n := by
  obtain ⟨r, hr⟩ := Option.isSome_iff_exists.1 h
  obtain ⟨rw, hraw, _⟩ := load_eq_some hr
  obtain ⟨wnids, cn, tr, vres, tres, hw, hcn, htr, hv, ht, hrw⟩ :=
    loadRaw_eq_some hraw
  have hwread : ∃ ls, fs.readLines (wnidsPath p) = some ls := by
    unfold readWnids at hw
    rcases Option.map_eq_some'.1 hw with ⟨ls, hls, _⟩
    exact ⟨ls, hls⟩
  refine ⟨?_, ?_, loadRaw_train_reads hraw, ?_, ?_⟩
  · obtain ⟨ls, hls⟩ := hwread
    rw [hls]
    rfl
  · obtain ⟨wordLines, entries, hwl, _, _⟩ := readClassNames_eq_some hcn
    rw [hwl]
    rfl
  · intro hit
    subst hit
    have hv' : (valPart fs p (wnidToLabel wnids)).map some =
        some vres := hv
    obtain ⟨vp, hvp, _⟩ := Option.map_eq_some'.1 hv'
    obtain ⟨vlines, pairs, yv, xv, hvl, hpairs, hyv, hxv, _⟩ :=
      valPart_eq_some hvp
    constructor
    · rw [hvl]
      rfl
    · intro f hf
      rw [valFilenames, hvl] at hf
      simp only [Option.getD_some] at hf
      obtain ⟨line, hline, hfl⟩ := List.mem_map.1 hf
      obtain ⟨pr0, hpr0⟩ := mapO_some_of_mem hpairs hline
      have hfst := parseValLine_fst hpr0
      have hprmem := mapO_mem_of_mem hpairs hline hpr0
      obtain ⟨b, hb⟩ := mapO_some_of_mem hxv hprmem
      rcases Option.map_eq_some'.1 hb with ⟨raw, hread, _⟩
      rw [← hfl, ← hfst, hread]
      rfl
  · intro hit
    subst hit
    have ht' : (testPart fs p).map some = some tres := ht
    obtain ⟨tp, htp, _⟩ := Option.map_eq_some'.1 ht'
    obtain ⟨L, xt, hlist, hxt, _⟩ := testPart_eq_some htp
    constructor
    · rw [hlist]
      rfl
    · intro f hf
      rw [hlist] at hf
      simp only [Option.getD_some] at hf
      obtain ⟨b, hb⟩ := mapO_some_of_mem hxt hf
      rcases Option.map_eq_some'.1 hb with ⟨raw, hread, _⟩
      rw [hread]
      rfl

theorem C7_all_or_nothing_witness :
    (load fsGood "d" true true false 3).isSome = true ∧
    ReadsOk fsGood "d" true false 3 :=
  ⟨rfl, C7_all_or_nothing fsGood "d" true true false 3 rfl⟩

/-- C8: the load is deterministic — its result is a function of the file
contents alone (two filesystems that answer every read identically, e.g.
the same fixture directory read twice, give bit-identical results,
including the ordering of the test block, which follows the directory
listing). -/
theorem C8_deterministic (fs₁ fs₂ : FS) (p : String) (it sm dbg : Bool)
    (n : ℕ)
    (h1 : ∀ q, fs₁.readLines q = fs₂.readLines q)
    (h2 : ∀ q, fs₁.readImage q = fs₂.readImage q)
    (h3 : ∀ q, fs₁.listDir q = fs₂.listDir q) :
    load fs₁ p it sm dbg n = load fs₂ p it sm dbg n := by
  have hfs : fs₁ = fs₂ := by
    cases fs₁
    cases fs₂
    simp only [FS.mk.injEq]
    exact ⟨funext h1, funext h2, funext h3⟩
  rw [hfs]

theorem C8_deterministic_witness :
    (∀ q, fsGood.readLines q = fsGood.readLines q) ∧
    (∀ q, fsGood.readImage q = fsGood.readImage q) ∧
    (∀ q, fsGood.listDir q = fsGood.listDir q) ∧
    load fsGood "d" true true false 3 = load fsGood "d" true true false 3 :=
  ⟨fun _ => rfl, fun _ => rfl, fun _ => rfl,
    C8_deterministic fsGood fsGood "d" true true false 3
      (fun _ => rfl) (fun _ => rfl) (fun _ => rfl)⟩

/-- C9: with `is_training=True`, if any line of `val/val_annotations.txt`
names a wnid that does not appear in `wnids.txt`, the label lookup raises
and the load returns no result. -/
theorem C9_unknown_val_wnid (fs : FS) (p : String) (sm dbg : Bool) (n : ℕ)
    (vlines : List String) (line f w : String)
    (hv : fs.readLines (valAnnPath p) = some vlines)
    (hmem : line ∈ vlines)
    (hparse : parseValLine line = some (f, w))
    (hw : w ∉ wnidsOf fs p) :
    load fs p true sm dbg n = none := by
  cases hload : load fs p true sm dbg n with
  | none => rfl
  | some r =>
    exfalso
    obtain ⟨rw, hraw, _⟩ := load_eq_some hload
    obtain ⟨wnids, cn, tr, vres, tres, hwl, hcn, htr, hv2, ht, hrw⟩ :=
      loadRaw_eq_some hraw
    have hwn : wnidsOf fs p = wnids := by
      rw [wnidsOf, hwl]
      rfl
    rw [hwn] at hw
    have hv' : (valPart fs p (wnidToLabel wnids)).map some =
        some vres := hv2
    obtain ⟨vp, hvp, _⟩ := Option.map_eq_some'.1 hv'
    obtain ⟨vlines2, pairs, yv, xv, hvl2, hpairs, hyv, hxv, _⟩ :=
      valPart_eq_some hvp
    rw [hv] at hvl2
    cases hvl2
    have hmem2 : (f, w) ∈ pairs := mapO_mem_of_mem hpairs hmem hparse
    obtain ⟨b, hb⟩ := mapO_some_of_mem hyv hmem2
    have hb' : dictLookup (wnidToLabel wnids) w = some b := hb
    rw [dictLookup_wnidToLabel_none hw] at hb'
    exact Option.noConfusion hb'

theorem C9_unknown_val_wnid_witness :
    fsBadVal.readLines (valAnnPath "d") =
      some ["v1.jpg\tc\t0\t0\t63\t63"] ∧
    "v1.jpg\tc\t0\t0\t63\t63" ∈ ["v1.jpg\tc\t0\t0\t63\t63"] ∧
    parseValLine "v1.jpg\tc\t0\t0\t63\t63" = some ("v1.jpg", "c") ∧
    "c" ∉ wnidsOf fsBadVal "d" ∧
    load fsBadVal "d" true false false 3 = none :=
  ⟨rfl, List.mem_singleton.2 rfl, rfl, by decide,
    C9_unknown_val_wnid fsBadVal "d" false false 3
      ["v1.jpg\tc\t0\t0\t63\t63"] "v1.jpg\tc\t0\t0\t63\t63" "v1.jpg" "c"
      rfl (List.mem_singleton.2 rfl) rfl (by decide)⟩

/-- C10: with `debug=True` and `is_training=True`, the truncation applies
only to the training classes: the validation split is computed from the
full annotation file with labels looked up in the full (untruncated)
wnid-to-index mapping, every listed validation image is decoded, and the
returned validation blocks have one entry per annotation line. -/
theorem C10_debug_keeps_val (fs : FS) (p : String) (sm : Bool) (n : ℕ)
    (r : Result) (hl : load fs p true sm true n = some r) :
    ∃ vp, valPart fs p (wnidToLabel (wnidsOf fs p)) = some vp ∧
      r.y_val = some vp.2 ∧
      (∃ xs, r.X_val = some xs ∧ xs.length = vp.1.length) ∧
      ∃ vlines, fs.readLines (valAnnPath p) = some vlines ∧
        vp.1.length = vlines.length := by
  obtain ⟨rw, hraw, hr⟩ := load_eq_some hl
  subst hr
  obtain ⟨wnids, cn, tr, vres, tres, hwl, hcn, htr, hv, ht, hrw⟩ :=
    loadRaw_eq_some hraw
  have hwn : wnidsOf fs p = wnids := by
    rw [wnidsOf, hwl]
    rfl
  rw [hwn]
  have hv' : (valPart fs p (wnidToLabel wnids)).map some = some vres := hv
  obtain ⟨vp, hvp, hvres⟩ := Option.map_eq_some'.1 hv'
  subst hvres
  subst hrw
  refine ⟨vp, hvp, ?_, ?_, ?_⟩
  · rw [finishLoad_y_val]
    rfl
  · cases sm with
    | false => exact ⟨vp.1, rfl, rfl⟩
    | true =>
      refine ⟨subMean (meanImage tr.1) vp.1, rfl, ?_⟩
      exact List.length_map _ _
  · obtain ⟨vlines, pairs, yv, xv, hvl, hpairs, hyv, hxv, hvp2⟩ :=
      valPart_eq_some hvp
    refine ⟨vlines, hvl, ?_⟩
    rw [hvp2]
    show xv.length = vlines.length
    rw [mapO_length hxv, mapO_length hpairs]

theorem C10_debug_keeps_val_witness :
    load fsGood "d" true false true 1 = some resGoodDebug ∧
    ∃ vp, valPart fsGood "d" (wnidToLabel (wnidsOf fsGood "d")) =
        some vp ∧
      resGoodDebug.y_val = some vp.2 ∧
      (∃ xs, resGoodDebug.X_val = some xs ∧ xs.length = vp.1.length) ∧
      ∃ vlines, fsGood.readLines (valAnnPath "d") = some vlines ∧
        vp.1.length = vlines.length :=
  ⟨rfl, C10_debug_keeps_val fsGood "d" false 1 resGoodDebug rfl⟩

end TinyImageNet
